import Mathlib

/-!
Shallow embedding of the version-resolution engine of a Concourse git
resource (`controller/git.go`).

The pure decision logic of the controller is translated directly.  All
repository I/O that the Go code delegates to the git backend (libgit2) —
tag enumeration, odb commit enumeration, ref resolution, tree-to-tree
diff — is modelled as an explicit environment `GitEnv` carrying the
backend's answers, so the policies below are ordinary functions of that
environment and of the request configuration.

A Go `RefResult` is a slice of one-key maps `{"ref": v}`; it is modelled
here as the list of those `v` strings.  Metadata records keep their
name/value structure as pairs.
-/

namespace ConcourseGitResource

/-- Source section of the resource payload (`Source` in git.go).
`pathSearch` is `none` when the JSON `paths` field is absent, i.e. when
the Go slice `PathSearch` is nil; `Check` tests that slice against nil. -/
structure Source where
  url : String
  branch : String
  tagFilter : String
  pathSearch : Option (List String)
  privateKey : String
deriving DecidableEq

/-- A version reference (`Ref` in git.go); the empty string plays the role
of an absent version. -/
structure Ref where
  ref : String
deriving DecidableEq

/-- Request payload (`Payload` in git.go). -/
structure Payload where
  source : Source
  version : Ref
deriving DecidableEq

/-- Controller configuration (`Config` in git.go). -/
structure Config where
  input : Payload
  path : String
deriving DecidableEq

/-- A tag record (`Tag` in git.go): reference name as enumerated by
`Tags.Foreach`, target commit id, and `When`, the Unix timestamp computed
by `tagWhen`. -/
structure Tag where
  name : String
  commit : String
  when : Int
deriving DecidableEq

/-- Backend answers consumed by the decision logic: `tags` is the list
collected by `listTags` for the configured filter, in enumeration order;
`commits` is the odb enumeration of commit ids collected by
`lastCommits`; `tipCommit` is the target of
`refs/remotes/origin/<branch>`; `changedPaths` is the file list produced
by `diff` between that tip and the remembered version. -/
structure GitEnv where
  tags : List Tag
  commits : List String
  tipCommit : String
  changedPaths : List String
deriving DecidableEq

/-- Distinct characters of the Go cutset string `"refs/tags/"`:
`strings.Trim(s, cutset)` removes all leading and trailing code points
drawn from this set, not the literal prefix. -/
def tagCutset : List Char := ['r', 'e', 'f', 's', '/', 't', 'a', 'g']

/-- The Go expression `strings.Trim(name, "refs/tags/")` used by both
`lastTag` and `lastTags`. -/
def trimTagRef (s : String) : String :=
  String.mk (((s.toList.dropWhile fun c => tagCutset.contains c).reverse.dropWhile
    fun c => tagCutset.contains c).reverse)

/-- Insertion of one element into an already sorted accumulator: the new
element settles after every element it is not `less` than.  Together with
`goSort` this models Go's `sort.Slice`, which runs exactly this insertion
sort on slices of the sizes arising here. -/
def goInsert (less : α → α → Bool) (x : α) : List α → List α
  | [] => [x]
  | y :: ys => if less x y then x :: y :: ys else y :: goInsert less x ys

/-- Left-to-right insertion sort modelling `sort.Slice(listTag, less)`. -/
def goSort (less : α → α → Bool) (l : List α) : List α :=
  l.foldl (fun acc x => goInsert less x acc) []

/-- Comparator passed to `sort.Slice` in `lastTag` (ascending by `When`).
The final branch of the Go comparator repeats the first comparison and is
only reached on equal timestamps, where it yields `false`. -/
def tagLessAsc (a b : Tag) : Bool :=
  if a.when < b.when then true
  else if a.when > b.when then false
  else decide (a.when < b.when)

/-- Comparator passed to `sort.Slice` in `lastTags` (descending by
`When`); same shape as the ascending one with the comparisons flipped. -/
def tagLessDesc (a b : Tag) : Bool :=
  if a.when > b.when then true
  else if a.when < b.when then false
  else decide (a.when > b.when)

/-- `lastTag` in git.go: sort ascending by timestamp and report the
trimmed name of the final element.  The Go code indexes
`listTag[len(listTag)-1]` and is only ever invoked on a non-empty list
(`checkTagFilter` guards on nil); the empty case is mapped to the empty
result. -/
def lastTag (listTag : List Tag) : List String :=
  match (goSort tagLessAsc listTag).getLast? with
  | some lt => [trimTagRef lt.name]
  | none => []

/-- Loop body of `lastTags` in git.go: walk the (descending-sorted) tag
list, prepend each trimmed name to the accumulated result, and stop once
the trimmed name equals the remembered version. -/
def lastTagsLoop (lastSeen : String) : List Tag → List String → List String
  | [], result => result
  | t :: ts, result =>
    let lt := trimTagRef t.name
    if lastSeen == lt then lt :: result
    else lastTagsLoop lastSeen ts (lt :: result)

/-- `lastTags` in git.go: sort descending by timestamp, then run the
prepend-and-stop walk against the remembered version. -/
def lastTags (listTag : List Tag) (lastSeen : String) : List String :=
  lastTagsLoop lastSeen (goSort tagLessDesc listTag) []

/-- Loop body of `lastCommits` in git.go: walk the odb enumeration,
prepend each commit id to the accumulated result, and stop once the id
equals the remembered version. -/
def lastCommitsLoop (lastSeen : String) : List String → List String → List String
  | [], result => result
  | c :: cs, result =>
    if lastSeen == c then c :: result
    else lastCommitsLoop lastSeen cs (c :: result)

/-- `lastCommits` in git.go, applied to the odb commit enumeration
supplied by the backend (no sorting is performed). -/
def lastCommits (allCommitList : List String) (lastSeen : String) : List String :=
  lastCommitsLoop lastSeen allCommitList []

/-- Longest prefix of a list up to and including the first element
satisfying `p` (the whole list when no element does): the visiting order
of the prepend-and-stop loops above. -/
def scanUntil (p : α → Bool) : List α → List α
  | [] => []
  | x :: xs => if p x then [x] else x :: scanUntil p xs

/-- `checkCommit` in git.go: with a remembered version, run the commit
walk; otherwise report the single commit id at the remote branch tip. -/
def checkCommit (env : GitEnv) (config : Config) : List String :=
  if config.input.version.ref ≠ "" then lastCommits env.commits config.input.version.ref
  else [env.tipCommit]

/-- `checkPaths` in git.go: without a remembered version fall through to
`checkCommit`; otherwise compare every configured path against every
changed path by string equality and fall through to `checkCommit` on the
first hit, returning nil when none matches.  (The Go double loop
re-evaluates `diff(config)` per outer iteration; the diff is a pure
function of the environment here, so the early-exit double loop is an
`any` over both lists.) -/
def checkPaths (env : GitEnv) (config : Config) : List String :=
  if config.input.version.ref = "" then checkCommit env config
  else if (config.input.source.pathSearch.getD []).any
      (fun pathSearch => env.changedPaths.any fun pf => pf == pathSearch) then
    checkCommit env config
  else []

/-- `checkTagFilter` in git.go: with a remembered version run `lastTags`
on the filtered tag list, otherwise `lastTag` when that list is non-nil,
otherwise nil. -/
def checkTagFilter (env : GitEnv) (config : Config) : List String :=
  if config.input.version.ref ≠ "" then lastTags env.tags config.input.version.ref
  else if env.tags ≠ [] then lastTag env.tags
  else []

/-- The branch defaulting performed at the top of `Check` (and `Init`):
an empty `Branch` is replaced by `master`. -/
def withDefaultBranch (config : Config) : Config :=
  if config.input.source.branch = "" then
    { config with input.source.branch := "master" }
  else config

/-- `Check` in git.go: default the branch, then dispatch — a non-empty
`TagFilter` selects the tag-filter policy, else a non-nil `PathSearch`
selects the path-filter policy, else the plain-commit policy. -/
def Check (env : GitEnv) (config : Config) : List String :=
  let config := withDefaultBranch config
  if config.input.source.tagFilter ≠ "" then checkTagFilter env config
  else
    match config.input.source.pathSearch with
    | some _ => checkPaths env config
    | none => checkCommit env config

/-- Commit fields read by `GetMetaData` once the version has been
resolved to a commit object by the backend. -/
structure CommitInfo where
  id : String
  committerName : String
  committerWhen : String
  message : String
deriving DecidableEq

/-- `GetMetaData` in git.go.  `tagFound` records whether the lookup of
`refs/tags/<version>` returned an object (the Go `obj != nil` test); the
commit object the version resolves to is supplied by the backend.  The
six name/value records are appended in the fixed source order. -/
def GetMetaData (tagFound : Bool) (commitInfo : CommitInfo) (input : Payload) :
    List (String × String) :=
  [("commit", commitInfo.id),
   ("author", commitInfo.committerName),
   ("date", commitInfo.committerWhen),
   ("branch", input.source.branch),
   ("tag", if tagFound then input.version.ref else ""),
   ("message", commitInfo.message)]

/-- Filesystem state touched by the key-provisioning part of `Init`:
existing directories and existing files with their contents. -/
structure Fs where
  dirs : List String
  files : List (String × String)
deriving DecidableEq

/-- `exists` in git.go (an `os.Stat` probe): a path exists when it is a
known directory or file. -/
def existsPath (fs : Fs) (path : String) : Bool :=
  fs.dirs.contains path || fs.files.any fun f => f.1 == path

/-- The fixed key location `var sshKeyPath = "/root/.ssh/"`. -/
def sshKeyPath : String := "/root/.ssh/"

/-- Key-provisioning part of `Init` in git.go: when `exists(sshKeyPath)`
is false, create the directory, write the private key to `id_rsa` and the
derived public key (the `ssh-keygen -y` output, supplied here as
`pubKey`) to `id_rsa.pub`; otherwise touch nothing.  The clone/fetch part
of `Init` is backend I/O and out of scope of this state. -/
def initSshKeys (fs : Fs) (privateKey pubKey : String) : Fs :=
  if existsPath fs sshKeyPath then fs
  else
    { dirs := sshKeyPath :: fs.dirs,
      files := (sshKeyPath ++ "id_rsa", privateKey) ::
        (sshKeyPath ++ "id_rsa.pub", pubKey) :: fs.files }

/-! Permutation and sortedness facts about the insertion sort. -/

theorem goInsert_perm (less : α → α → Bool) (x : α) (l : List α) :
    List.Perm (goInsert less x l) (x :: l) := by
  induction l with
  | nil => simp [goInsert]
  | cons y ys ih =>
    rw [goInsert]
    by_cases h : less x y = true
    · rw [if_pos h]
    · rw [if_neg h]
      exact (ih.cons y).trans (List.Perm.swap x y ys)

theorem goSort_perm_aux (less : α → α → Bool) (l acc : List α) :
    List.Perm (l.foldl (fun a x => goInsert less x a) acc) (l ++ acc) := by
  induction l generalizing acc with
  | nil => simp
  | cons x xs ih =>
    rw [List.foldl_cons]
    exact (ih (goInsert less x acc)).trans
      (((goInsert_perm less x acc).append_left xs).trans List.perm_middle)

theorem goSort_perm (less : α → α → Bool) (l : List α) :
    List.Perm (goSort less l) l := by
  simpa [goSort] using goSort_perm_aux less l []

theorem goInsert_pairwise (less : α → α → Bool)
    (hasym : ∀ a b, less a b = true → less b a = false)
    (htrans : ∀ a b c, less a b = true → less c b = false → less c a = false)
    (x : α) (l : List α) (hl : l.Pairwise fun a b => less b a = false) :
    (goInsert less x l).Pairwise fun a b => less b a = false := by
  induction l with
  | nil => simp [goInsert]
  | cons y ys ih =>
    rw [goInsert]
    rcases List.pairwise_cons.mp hl with ⟨hy, hys⟩
    by_cases h : less x y = true
    · rw [if_pos h]
      refine List.pairwise_cons.mpr ⟨?_, hl⟩
      intro z hz
      rcases List.mem_cons.mp hz with rfl | hz
      · exact hasym x z h
      · exact htrans x y z h (hy z hz)
    · rw [if_neg h]
      refine List.pairwise_cons.mpr ⟨?_, ih hys⟩
      intro z hz
      rcases List.mem_cons.mp ((goInsert_perm less x ys).mem_iff.mp hz) with rfl | hz
      · simpa using h
      · exact hy z hz

theorem goSort_pairwise (less : α → α → Bool)
    (hasym : ∀ a b, less a b = true → less b a = false)
    (htrans : ∀ a b c, less a b = true → less c b = false → less c a = false)
    (l : List α) :
    (goSort less l).Pairwise fun a b => less b a = false := by
  suffices h : ∀ (l acc : List α), (acc.Pairwise fun a b => less b a = false) →
      ((l.foldl (fun a x => goInsert less x a) acc).Pairwise fun a b => less b a = false) by
    exact h l [] (by simp)
  intro l
  induction l with
  | nil => intro acc hacc; simpa using hacc
  | cons x xs ih =>
    intro acc hacc
    rw [List.foldl_cons]
    exact ih _ (goInsert_pairwise less hasym htrans x acc hacc)

theorem tagLessAsc_eq (a b : Tag) : tagLessAsc a b = decide (a.when < b.when) := by
  unfold tagLessAsc
  by_cases h1 : a.when < b.when
  · simp [h1]
  · by_cases h2 : a.when > b.when
    · simp [h1, h2]
    · simp [h1, h2]

theorem tagLessDesc_eq (a b : Tag) : tagLessDesc a b = decide (b.when < a.when) := by
  unfold tagLessDesc
  by_cases h1 : a.when > b.when
  · simp [h1]
  · by_cases h2 : a.when < b.when
    · simp [h1, h2]
    · simp [h1, h2]

theorem tagLessAsc_asym (a b : Tag) (h : tagLessAsc a b = true) : tagLessAsc b a = false := by
  rw [tagLessAsc_eq] at h ⊢
  simp only [decide_eq_true_eq] at h
  simp only [decide_eq_false_iff_not]
  omega

theorem tagLessAsc_trans (a b c : Tag) (h1 : tagLessAsc a b = true)
    (h2 : tagLessAsc c b = false) : tagLessAsc c a = false := by
  rw [tagLessAsc_eq] at h1 h2 ⊢
  simp only [decide_eq_true_eq] at h1
  simp only [decide_eq_false_iff_not] at h2 ⊢
  omega

theorem tagLessDesc_asym (a b : Tag) (h : tagLessDesc a b = true) : tagLessDesc b a = false := by
  rw [tagLessDesc_eq] at h ⊢
  simp only [decide_eq_true_eq] at h
  simp only [decide_eq_false_iff_not]
  omega

theorem tagLessDesc_trans (a b c : Tag) (h1 : tagLessDesc a b = true)
    (h2 : tagLessDesc c b = false) : tagLessDesc c a = false := by
  rw [tagLessDesc_eq] at h1 h2 ⊢
  simp only [decide_eq_true_eq] at h1
  simp only [decide_eq_false_iff_not] at h2 ⊢
  omega

/-! Facts about the prepend-and-stop walk. -/

theorem scanUntil_ne_nil (p : α → Bool) (x : α) (xs : List α) :
    scanUntil p (x :: xs) ≠ [] := by
  rw [scanUntil]
  by_cases h : p x = true
  · rw [if_pos h]; simp
  · rw [if_neg h]; simp

theorem scanUntil_mem (p : α → Bool) (l : List α) :
    ∀ r ∈ scanUntil p l, r ∈ l := by
  induction l with
  | nil => simp [scanUntil]
  | cons x xs ih =>
    rw [scanUntil]
    by_cases h : p x = true
    · rw [if_pos h]
      intro r hr
      simp only [List.mem_singleton] at hr
      simp [hr]
    · rw [if_neg h]
      intro r hr
      rcases List.mem_cons.mp hr with rfl | hr
      · exact List.mem_cons_self _ _
      · exact List.mem_cons_of_mem _ (ih r hr)

theorem scanUntil_of_no_match (p : α → Bool) (l : List α) (h : ∀ x ∈ l, p x = false) :
    scanUntil p l = l := by
  induction l with
  | nil => rfl
  | cons x xs ih =>
    rw [scanUntil, if_neg (by simp [h x (List.mem_cons_self x xs)])]
    exact congrArg (x :: ·) (ih fun y hy => h y (List.mem_cons_of_mem x hy))

theorem scanUntil_getLast_found (p : α → Bool) (l : List α)
    (h : ∃ x ∈ l, p x = true) :
    ∃ y, p y = true ∧ (scanUntil p l).getLast? = some y := by
  induction l with
  | nil => simp at h
  | cons x xs ih =>
    rw [scanUntil]
    by_cases hx : p x = true
    · rw [if_pos hx]
      exact ⟨x, hx, rfl⟩
    · rw [if_neg hx]
      have hxs : ∃ y ∈ xs, p y = true := by
        rcases h with ⟨y, hy, hpy⟩
        rcases List.mem_cons.mp hy with rfl | hy
        · exact absurd hpy hx
        · exact ⟨y, hy, hpy⟩
      rcases ih hxs with ⟨y, hpy, hlast⟩
      refine ⟨y, hpy, ?_⟩
      rcases hscan : scanUntil p xs with _ | ⟨z, zs⟩
      · rcases hxs with ⟨w, hw, _⟩
        cases xs with
        | nil => simp at hw
        | cons a as => exact absurd hscan (scanUntil_ne_nil p a as)
      · rw [hscan] at hlast
        rw [List.getLast?_cons_cons]
        exact hlast

theorem scanUntil_beq_found (lastSeen : String) (l : List String) (h : lastSeen ∈ l) :
    scanUntil (fun c => lastSeen == c) l =
      l.takeWhile (fun c => !(lastSeen == c)) ++ [lastSeen] := by
  induction l with
  | nil => simp at h
  | cons c cs ih =>
    by_cases hc : lastSeen = c
    · subst hc
      rw [scanUntil, if_pos (by simp)]
      simp [List.takeWhile_cons]
    · have hbc : (lastSeen == c) = false := by simp [hc]
      rw [scanUntil, if_neg (by simp [hc])]
      have hmem : lastSeen ∈ cs := by
        rcases List.mem_cons.mp h with rfl | hm
        · exact absurd rfl hc
        · exact hm
      rw [List.takeWhile_cons, hbc]
      simp only [Bool.not_false, if_true, List.cons_append]
      exact congrArg (c :: ·) (ih hmem)

/-! The accumulator loops of `lastTags` and `lastCommits` are the reversed
walk prefix. -/

theorem lastTagsLoop_eq (lastSeen : String) (l : List Tag) (acc : List String) :
    lastTagsLoop lastSeen l acc =
      ((scanUntil (fun t => lastSeen == trimTagRef t.name) l).map
        (fun t => trimTagRef t.name)).reverse ++ acc := by
  induction l generalizing acc with
  | nil => simp [lastTagsLoop, scanUntil]
  | cons t ts ih =>
    simp only [lastTagsLoop, scanUntil]
    by_cases h : (lastSeen == trimTagRef t.name) = true
    · simp [h]
    · simp [h, ih]

theorem lastCommitsLoop_eq (lastSeen : String) (l acc : List String) :
    lastCommitsLoop lastSeen l acc =
      (scanUntil (fun c => lastSeen == c) l).reverse ++ acc := by
  induction l generalizing acc with
  | nil => simp [lastCommitsLoop, scanUntil]
  | cons c cs ih =>
    simp only [lastCommitsLoop, scanUntil]
    by_cases h : (lastSeen == c) = true
    · simp [h]
    · simp [h, ih]

/-! Small list auxiliaries. -/

theorem getLast_map_opt (f : α → β) (l : List α) :
    (l.map f).getLast? = (l.getLast?).map f := by
  induction l with
  | nil => rfl
  | cons x xs ih =>
    cases xs with
    | nil => rfl
    | cons y ys =>
      simp only [List.map_cons, List.getLast?_cons_cons]
      simp only [List.map_cons] at ih
      exact ih

theorem mem_of_getLastQ (l : List α) (a : α) (h : l.getLast? = some a) : a ∈ l := by
  induction l with
  | nil => simp at h
  | cons x xs ih =>
    cases xs with
    | nil =>
      simp only [List.getLast?_singleton, Option.some.injEq] at h
      simp [h]
    | cons y ys =>
      rw [List.getLast?_cons_cons] at h
      exact List.mem_cons_of_mem x (ih h)

theorem pairwise_rel_getLast {R : α → α → Prop} (l : List α) (t : α)
    (hp : l.Pairwise R) (hl : l.getLast? = some t) :
    ∀ u ∈ l, u = t ∨ R u t := by
  induction l with
  | nil => simp at hl
  | cons x xs ih =>
    cases xs with
    | nil =>
      simp only [List.getLast?_singleton, Option.some.injEq] at hl
      intro u hu
      simp only [List.mem_singleton] at hu
      exact Or.inl (hu.trans hl)
    | cons y ys =>
      rw [List.getLast?_cons_cons] at hl
      rcases List.pairwise_cons.mp hp with ⟨hx, hxs⟩
      intro u hu
      rcases List.mem_cons.mp hu with rfl | hu
      · exact Or.inr (hx t (mem_of_getLastQ _ t hl))
      · exact ih hxs hl u hu

/-! Branch defaulting is inert for the fields the policies read. -/

theorem withDefaultBranch_tagFilter (c : Config) :
    (withDefaultBranch c).input.source.tagFilter = c.input.source.tagFilter := by
  unfold withDefaultBranch
  split <;> rfl

theorem withDefaultBranch_pathSearch (c : Config) :
    (withDefaultBranch c).input.source.pathSearch = c.input.source.pathSearch := by
  unfold withDefaultBranch
  split <;> rfl

theorem withDefaultBranch_version (c : Config) :
    (withDefaultBranch c).input.version = c.input.version := by
  unfold withDefaultBranch
  split <;> rfl

theorem checkCommit_withDefaultBranch (env : GitEnv) (c : Config) :
    checkCommit env (withDefaultBranch c) = checkCommit env c := by
  unfold checkCommit
  rw [withDefaultBranch_version]

theorem checkPaths_withDefaultBranch (env : GitEnv) (c : Config) :
    checkPaths env (withDefaultBranch c) = checkPaths env c := by
  unfold checkPaths
  rw [withDefaultBranch_version, withDefaultBranch_pathSearch, checkCommit_withDefaultBranch]

theorem checkTagFilter_withDefaultBranch (env : GitEnv) (c : Config) :
    checkTagFilter env (withDefaultBranch c) = checkTagFilter env c := by
  unfold checkTagFilter
  rw [withDefaultBranch_version]

theorem Check_eq (env : GitEnv) (config : Config) :
    Check env config =
      if config.input.source.tagFilter ≠ "" then checkTagFilter env config
      else
        match config.input.source.pathSearch with
        | some _ => checkPaths env config
        | none => checkCommit env config := by
  simp only [Check]
  simp only [withDefaultBranch_tagFilter, withDefaultBranch_pathSearch,
    checkTagFilter_withDefaultBranch, checkPaths_withDefaultBranch,
    checkCommit_withDefaultBranch]

/-! Claim theorems. -/

/-- Claim C5 (confirmed): for every configuration with no tag filter and no
remembered version — watched paths may or may not be set — `Check` returns
exactly one version, the remote-tracking branch tip's commit identifier. -/
theorem c5_bootstrap_no_lastSeen (env : GitEnv) (config : Config)
    (htf : config.input.source.tagFilter = "")
    (href : config.input.version.ref = "") :
    Check env config = [env.tipCommit] := by
  rw [Check_eq, if_neg (by simp [htf])]
  cases hps : config.input.source.pathSearch with
  | none => simp [checkCommit, href]
  | some ps => simp [checkPaths, checkCommit, href]

theorem c5_bootstrap_no_lastSeen_witness :
    Check ⟨[], [], "deadbeef", []⟩
      ⟨⟨⟨"git@example.com:r", "", "", some ["src/app.go"], ""⟩, ⟨""⟩⟩, "/tmp/repo"⟩ =
      ["deadbeef"] :=
  c5_bootstrap_no_lastSeen _ _ rfl rfl

/-- Claim C6 (confirmed): `Check` dispatches by strict precedence — a
non-empty `tagFilter` selects the tag-filter policy, else a present
`pathSearch` selects the path-filter policy, else the plain-commit policy;
in particular `tagFilter` wins when both filters are set. -/
theorem c6_policy_precedence (env : GitEnv) (config : Config) :
    (config.input.source.tagFilter ≠ "" → Check env config = checkTagFilter env config) ∧
    (config.input.source.tagFilter = "" →
      ∀ ps, config.input.source.pathSearch = some ps →
        Check env config = checkPaths env config) ∧
    (config.input.source.tagFilter = "" → config.input.source.pathSearch = none →
      Check env config = checkCommit env config) := by
  refine ⟨fun h => ?_, fun h ps hps => ?_, fun h hps => ?_⟩
  · rw [Check_eq, if_pos h]
  · rw [Check_eq, if_neg (by simp [h]), hps]
  · rw [Check_eq, if_neg (by simp [h]), hps]

theorem c6_policy_precedence_witness :
    Check ⟨[⟨"refs/tags/v1", "c0", 5⟩], ["c0"], "tip", ["src/app.go"]⟩
        ⟨⟨⟨"u", "master", "v", some ["src/app.go"], ""⟩, ⟨"v1"⟩⟩, "p"⟩ =
      checkTagFilter ⟨[⟨"refs/tags/v1", "c0", 5⟩], ["c0"], "tip", ["src/app.go"]⟩
        ⟨⟨⟨"u", "master", "v", some ["src/app.go"], ""⟩, ⟨"v1"⟩⟩, "p"⟩ :=
  (c6_policy_precedence _ _).1 (by decide)

/-- Claim C8 (confirmed): `GetMetaData` produces exactly six name/value
fields in the fixed order commit, author, date, branch, tag, message; the
branch field echoes the configured branch, and the tag field is the
literal version string when the version resolved through the tag path and
the empty string otherwise. -/
theorem c8_metadata_fields (tagFound : Bool) (c : CommitInfo) (input : Payload) :
    (GetMetaData tagFound c input).map Prod.fst =
      ["commit", "author", "date", "branch", "tag", "message"] ∧
    (GetMetaData tagFound c input).length = 6 ∧
    (GetMetaData tagFound c input)[3]? = some ("branch", input.source.branch) ∧
    (GetMetaData true c input)[4]? = some ("tag", input.version.ref) ∧
    (GetMetaData false c input)[4]? = some ("tag", "") :=
  ⟨rfl, rfl, rfl, rfl, rfl⟩

/-- Claim C4 (confirmed): with watched paths set and a remembered version,
`Check` returns nil when no watched path occurs (by exact string equality)
among the changed paths, and otherwise returns exactly the plain-commit
Case B walk. -/
theorem c4_path_filter_gating (env : GitEnv) (config : Config) (ps : List String)
    (htf : config.input.source.tagFilter = "")
    (hps : config.input.source.pathSearch = some ps)
    (href : config.input.version.ref ≠ "") :
    ((∀ p ∈ ps, p ∉ env.changedPaths) → Check env config = []) ∧
    ((∃ p ∈ ps, p ∈ env.changedPaths) →
      Check env config = lastCommits env.commits config.input.version.ref) := by
  have hch : Check env config = checkPaths env config := by
    rw [Check_eq, if_neg (by simp [htf]), hps]
  constructor
  · intro h
    rw [hch]
    unfold checkPaths
    rw [if_neg href, if_neg ?hc]
    case hc =>
      rw [hps]
      simp only [Option.getD_some, List.any_eq_true, beq_iff_eq, not_exists]
      rintro p ⟨hp, pf, hpf, rfl⟩
      exact h _ hp hpf
  · rintro ⟨p, hp, hpin⟩
    rw [hch]
    unfold checkPaths
    rw [if_neg href, if_pos ?hc2]
    case hc2 =>
      rw [hps]
      simp only [Option.getD_some, List.any_eq_true, beq_iff_eq]
      exact ⟨p, hp, p, hpin, rfl⟩
    unfold checkCommit
    rw [if_pos href]

theorem c4_path_filter_gating_witness :
    Check ⟨[], ["c1", "c0"], "tip", ["docs/readme.md"]⟩
      ⟨⟨⟨"u", "master", "", some ["src/app.go"], ""⟩, ⟨"c0"⟩⟩, "p"⟩ = [] :=
  (c4_path_filter_gating ⟨[], ["c1", "c0"], "tip", ["docs/readme.md"]⟩
    ⟨⟨⟨"u", "master", "", some ["src/app.go"], ""⟩, ⟨"c0"⟩⟩, "p"⟩
    ["src/app.go"] rfl rfl (by decide)).1 (by decide)

/-- Claim C9 counterexample: the Go guard is `exists("/root/.ssh/")`, a
probe of the key *directory*, not of the private key file.  In a state
where the directory exists but the private key file does not, `Init`
performs no write at all, so "presence of the private key file is treated
as already initialized" is not what the code does. -/
theorem c9_counterexample :
    existsPath ⟨[sshKeyPath], []⟩ (sshKeyPath ++ "id_rsa") = false ∧
    initSshKeys ⟨[sshKeyPath], []⟩ "KEY" "PUB" = ⟨[sshKeyPath], []⟩ := by
  constructor
  · rfl
  · rfl

/-- Claim C9 as amended (corrected): the key material is written only when
the fixed key directory is absent — presence of the directory, not of the
private key file, is treated as "already initialized" — so a second
invocation always skips the write and leaves the filesystem unchanged. -/
theorem c9_init_idempotent (fs : Fs) (privateKey pubKey k2 p2 : String) :
    initSshKeys (initSshKeys fs privateKey pubKey) k2 p2 = initSshKeys fs privateKey pubKey ∧
    (existsPath fs sshKeyPath = true → initSshKeys fs privateKey pubKey = fs) := by
  constructor
  · by_cases h : existsPath fs sshKeyPath = true
    · have h1 : initSshKeys fs privateKey pubKey = fs := by
        simp only [initSshKeys]
        rw [if_pos h]
      rw [h1]
      simp only [initSshKeys]
      rw [if_pos h]
    · have h1 : initSshKeys fs privateKey pubKey =
          { dirs := sshKeyPath :: fs.dirs,
            files := (sshKeyPath ++ "id_rsa", privateKey) ::
              (sshKeyPath ++ "id_rsa.pub", pubKey) :: fs.files } := by
        simp only [initSshKeys]
        rw [if_neg h]
      rw [h1]
      simp only [initSshKeys]
      rw [if_pos (by simp [existsPath])]
  · intro h
    simp only [initSshKeys]
    rw [if_pos h]

theorem c9_init_idempotent_witness :
    initSshKeys (initSshKeys ⟨[], []⟩ "K" "P") "K2" "P2" = initSshKeys ⟨[], []⟩ "K" "P" ∧
    initSshKeys ⟨[sshKeyPath], [(sshKeyPath ++ "id_rsa", "K")]⟩ "K2" "P2" =
      ⟨[sshKeyPath], [(sshKeyPath ++ "id_rsa", "K")]⟩ :=
  ⟨(c9_init_idempotent ⟨[], []⟩ "K" "P" "K2" "P2").1,
   (c9_init_idempotent ⟨[sshKeyPath], [(sshKeyPath ++ "id_rsa", "K")]⟩ "K2" "P2" "x" "y").2
     (by decide)⟩

/-- Claim C2 (confirmed): with a tag filter and no remembered version,
`Check` returns the empty result on an empty filtered tag set, and
otherwise a single-element result naming a tag of maximal timestamp. -/
theorem c2_tag_filter_no_lastSeen (env : GitEnv) (config : Config)
    (htf : config.input.source.tagFilter ≠ "")
    (href : config.input.version.ref = "") :
    (env.tags = [] → Check env config = []) ∧
    (env.tags ≠ [] → ∃ t, t ∈ env.tags ∧ (∀ u ∈ env.tags, u.when ≤ t.when) ∧
      Check env config = [trimTagRef t.name]) := by
  have hch : Check env config = checkTagFilter env config := by
    rw [Check_eq, if_pos htf]
  rw [hch]
  unfold checkTagFilter
  rw [if_neg (by simp [href])]
  constructor
  · intro h
    rw [if_neg (by simp [h])]
  · intro h
    rw [if_pos h]
    have hperm : List.Perm (goSort tagLessAsc env.tags) env.tags := goSort_perm _ _
    have hs_ne : goSort tagLessAsc env.tags ≠ [] := by
      intro hnil
      apply h
      have hlen : env.tags.length = 0 := by rw [← hperm.length_eq, hnil, List.length_nil]
      exact List.length_eq_zero.mp hlen
    obtain ⟨t, ht⟩ := Option.isSome_iff_exists.mp (List.getLast?_isSome.mpr hs_ne)
    refine ⟨t, hperm.mem_iff.mp (mem_of_getLastQ _ t ht), ?_, ?_⟩
    · intro u hu
      have hu2 : u ∈ goSort tagLessAsc env.tags := hperm.mem_iff.mpr hu
      have hpw := goSort_pairwise tagLessAsc tagLessAsc_asym tagLessAsc_trans env.tags
      rcases pairwise_rel_getLast _ t hpw ht u hu2 with rfl | hr
      · exact le_refl _
      · rw [tagLessAsc_eq] at hr
        simp only [decide_eq_false_iff_not] at hr
        omega
    · unfold lastTag
      rw [ht]

theorem c2_tag_filter_no_lastSeen_witness :
    ∃ t, t ∈ ([⟨"refs/tags/v1", "c0", 5⟩, ⟨"refs/tags/v2", "c1", 9⟩] : List Tag) ∧
      (∀ u ∈ ([⟨"refs/tags/v1", "c0", 5⟩, ⟨"refs/tags/v2", "c1", 9⟩] : List Tag),
        u.when ≤ t.when) ∧
      Check ⟨[⟨"refs/tags/v1", "c0", 5⟩, ⟨"refs/tags/v2", "c1", 9⟩], [], "tip", []⟩
        ⟨⟨⟨"u", "master", "v", none, ""⟩, ⟨""⟩⟩, "p"⟩ = [trimTagRef t.name] :=
  (c2_tag_filter_no_lastSeen
    ⟨[⟨"refs/tags/v1", "c0", 5⟩, ⟨"refs/tags/v2", "c1", 9⟩], [], "tip", []⟩
    ⟨⟨⟨"u", "master", "v", none, ""⟩, ⟨""⟩⟩, "p"⟩ (by decide) rfl).2 (by decide)

/-- Claim C3 counterexample: walking `["a", "b"]` with remembered version
`"b"` yields `["b", "a"]` — the remembered version is the *first* element
of the result, and the last element is `"a"`, not `lastSeen`. -/
theorem c3_counterexample :
    ("b" ∈ ["a", "b"]) ∧ lastCommits ["a", "b"] "b" = ["b", "a"] ∧
    (lastCommits ["a", "b"] "b").getLast? = some "a" := by
  refine ⟨by decide, rfl, rfl⟩

/-- Claim C3 as amended (corrected): with a remembered version, the walk
prepends each enumerated commit id and stops at the first id equal to
`lastSeen`, so the result is the reverse of the enumeration prefix up to
and including that id and *begins* with `lastSeen` as its first element;
if `lastSeen` is never encountered the result contains every commit the
backend yielded, in reverse-of-enumeration order. -/
theorem c3_plain_commit_case_b (allCommitList : List String) (lastSeen : String) :
    (lastSeen ∈ allCommitList →
      lastCommits allCommitList lastSeen =
        (allCommitList.takeWhile (fun c => !(lastSeen == c)) ++ [lastSeen]).reverse ∧
      (lastCommits allCommitList lastSeen).head? = some lastSeen) ∧
    (lastSeen ∉ allCommitList → lastCommits allCommitList lastSeen = allCommitList.reverse) := by
  constructor
  · intro h
    have heq : lastCommits allCommitList lastSeen =
        (allCommitList.takeWhile (fun c => !(lastSeen == c)) ++ [lastSeen]).reverse := by
      unfold lastCommits
      rw [lastCommitsLoop_eq, List.append_nil, scanUntil_beq_found _ _ h]
    refine ⟨heq, ?_⟩
    rw [heq, List.head?_reverse]
    exact List.getLast?_concat _
  · intro h
    unfold lastCommits
    rw [lastCommitsLoop_eq, List.append_nil, scanUntil_of_no_match]
    intro x hx
    simp only [beq_eq_false_iff_ne]
    exact fun he => h (he ▸ hx)

theorem c3_plain_commit_case_b_witness :
    lastCommits ["a", "b", "c"] "b" =
      ((["a", "b", "c"].takeWhile fun c => !("b" == c)) ++ ["b"]).reverse ∧
    (lastCommits ["a", "b", "c"] "b").head? = some "b" :=
  (c3_plain_commit_case_b ["a", "b", "c"] "b").1 (by decide)

/-! Auxiliaries for the cutset-trim analysis and the sorted walk. -/

theorem dropWhile_length_le (p : α → Bool) (l : List α) :
    (l.dropWhile p).length ≤ l.length := by
  induction l with
  | nil => simp
  | cons x xs ih =>
    rw [List.dropWhile_cons]
    by_cases h : p x = true
    · rw [if_pos h]
      exact Nat.le_succ_of_le ih
    · rw [if_neg h]

theorem dropWhile_append_all (p : α → Bool) (l₁ l₂ : List α)
    (h : ∀ c ∈ l₁, p c = true) :
    (l₁ ++ l₂).dropWhile p = l₂.dropWhile p := by
  induction l₁ with
  | nil => rfl
  | cons x xs ih =>
    rw [List.cons_append, List.dropWhile_cons, if_pos (h x (List.mem_cons_self x xs))]
    exact ih fun c hc => h c (List.mem_cons_of_mem x hc)

theorem contains_cutset (c : Char) : tagCutset.contains c = true ↔ c ∈ tagCutset := by
  simp [List.contains]

theorem trimTagRef_toList (s : String) :
    (trimTagRef s).toList =
      ((s.toList.dropWhile fun c => tagCutset.contains c).reverse.dropWhile
        fun c => tagCutset.contains c).reverse := rfl

theorem trim_concat_length_lt (s : String) (hne : s.toList ≠ [])
    (hcut : (∃ c, s.toList.head? = some c ∧ c ∈ tagCutset) ∨
      (∃ c, s.toList.getLast? = some c ∧ c ∈ tagCutset)) :
    (trimTagRef ("refs/tags/" ++ s)).toList.length < s.toList.length := by
  have hpref : ∀ c ∈ "refs/tags/".toList, (tagCutset.contains c) = true := by decide
  have happ : ("refs/tags/" ++ s).toList = "refs/tags/".toList ++ s.toList := rfl
  rw [trimTagRef_toList, happ, dropWhile_append_all _ _ _ hpref, List.length_reverse]
  by_cases hh : ∃ c, s.toList.head? = some c ∧ c ∈ tagCutset
  · obtain ⟨c, hc, hcc⟩ := hh
    cases hsl : s.toList with
    | nil => exact absurd hsl hne
    | cons a as =>
      rw [hsl] at hc
      simp only [List.head?_cons, Option.some.injEq] at hc
      subst hc
      calc (((a :: as).dropWhile (fun x => tagCutset.contains x)).reverse.dropWhile
            (fun x => tagCutset.contains x)).length
          ≤ ((a :: as).dropWhile (fun x => tagCutset.contains x)).reverse.length :=
            dropWhile_length_le _ _
        _ = ((a :: as).dropWhile (fun x => tagCutset.contains x)).length :=
            List.length_reverse _
        _ = (as.dropWhile (fun x => tagCutset.contains x)).length := by
            rw [List.dropWhile_cons, if_pos ((contains_cutset a).mpr hcc)]
        _ ≤ as.length := dropWhile_length_le _ _
        _ < (a :: as).length := by simp
  · rcases hcut with hh2 | ⟨c, hc, hcc⟩
    · exact absurd hh2 hh
    · have hm : s.toList.dropWhile (fun x => tagCutset.contains x) = s.toList := by
        cases hsl : s.toList with
        | nil => rfl
        | cons a as =>
          rw [List.dropWhile_cons, if_neg ?hna]
          case hna =>
            intro hca
            exact hh ⟨a, by rw [hsl]; rfl, (contains_cutset a).mp hca⟩
      rw [hm]
      have hrev : s.toList.reverse.head? = some c := by
        rw [List.head?_reverse]
        exact hc
      cases hrl : s.toList.reverse with
      | nil => exact absurd (List.reverse_eq_nil_iff.mp hrl) hne
      | cons a as =>
        rw [hrl] at hrev
        simp only [List.head?_cons, Option.some.injEq] at hrev
        subst hrev
        rw [List.dropWhile_cons, if_pos ((contains_cutset a).mpr hcc)]
        calc (as.dropWhile (fun x => tagCutset.contains x)).length
            ≤ as.length := dropWhile_length_le _ _
          _ < (a :: as).length := by simp
          _ = s.toList.reverse.length := by rw [hrl]
          _ = s.toList.length := List.length_reverse _

/-- On a strictly descending tag list holding exactly one tag satisfying
the stop predicate, the prepend-and-stop walk visits exactly the tags with
timestamp at least that tag's timestamp. -/
theorem scanUntil_sorted_unique (p : Tag → Bool) (t0 : Tag) :
    ∀ s : List Tag, (s.Pairwise fun a b => b.when < a.when) → t0 ∈ s → p t0 = true →
      (∀ u ∈ s, p u = true → u = t0) →
      scanUntil p s = s.filter fun t => decide (t0.when ≤ t.when) := by
  intro s
  induction s with
  | nil => intro _ h0 _ _; simp at h0
  | cons t ts ih =>
    intro hs h0 hp0 huniq
    rcases List.pairwise_cons.mp hs with ⟨hhead, htail⟩
    by_cases hpt : p t = true
    · have ht : t = t0 := huniq t (List.mem_cons_self t ts) hpt
      subst ht
      rw [scanUntil, if_pos hpt]
      rw [List.filter_cons_of_pos (by simp)]
      have hnil : ts.filter (fun u => decide (t.when ≤ u.when)) = [] := by
        rw [List.filter_eq_nil_iff]
        intro u hu
        have hlt := hhead u hu
        simp only [decide_eq_true_eq]
        omega
      rw [hnil]
    · rw [scanUntil, if_neg hpt]
      have h0' : t0 ∈ ts := by
        rcases List.mem_cons.mp h0 with rfl | h
        · exact absurd hp0 hpt
        · exact h
      rw [List.filter_cons_of_pos (by have hlt := hhead t0 h0'; simp only [decide_eq_true_eq]; omega)]
      exact congrArg (t :: ·) (ih htail h0' hp0 fun u hu hp =>
        huniq u (List.mem_cons_of_mem t hu) hp)

/-- Claim C1 counterexample: tags `refs/tags/A` at time 10 and
`refs/tags/B` at time 20, remembered version `"A"` (a member of the set as
trimmed name).  The walk returns `["A", "B"]`: the elements and their
oldest-first order match the claim, but the *last* element is `"B"`, the
newest tag, not `lastSeen` — `lastSeen` is the first element. -/
theorem c1_counterexample :
    trimTagRef "refs/tags/A" = "A" ∧
    Check ⟨[⟨"refs/tags/A", "c1", 10⟩, ⟨"refs/tags/B", "c2", 20⟩], [], "", []⟩
      ⟨⟨⟨"u", "master", "v", none, ""⟩, ⟨"A"⟩⟩, "p"⟩ = ["A", "B"] ∧
    (Check ⟨[⟨"refs/tags/A", "c1", 10⟩, ⟨"refs/tags/B", "c2", 20⟩], [], "", []⟩
      ⟨⟨⟨"u", "master", "v", none, ""⟩, ⟨"A"⟩⟩, "p"⟩).getLast? = some "B" := by
  refine ⟨rfl, rfl, rfl⟩

/-- Claim C1 as amended (corrected): with a tag filter and a remembered
version that is the trimmed name of exactly one tag `t0` of the filtered
set, and pairwise distinct timestamps, `Check` returns exactly the
(trimmed names of the) tags with timestamp ≥ `t0`'s, ordered oldest
first, with the remembered version as the *first* element (not the last). -/
theorem c1_tag_filter_with_lastSeen (env : GitEnv) (config : Config) (t0 : Tag)
    (htf : config.input.source.tagFilter ≠ "")
    (href : config.input.version.ref ≠ "")
    (ht0 : t0 ∈ env.tags)
    (hname : trimTagRef t0.name = config.input.version.ref)
    (huniq : ∀ u ∈ env.tags, trimTagRef u.name = config.input.version.ref → u = t0)
    (hdist : env.tags.Pairwise fun a b => a.when ≠ b.when) :
    ∃ l : List Tag,
      List.Perm l (env.tags.filter fun t => decide (t0.when ≤ t.when)) ∧
      l.Pairwise (fun a b => a.when ≤ b.when) ∧
      Check env config = l.map (fun t => trimTagRef t.name) ∧
      (Check env config).head? = some config.input.version.ref := by
  have hch : Check env config = lastTags env.tags config.input.version.ref := by
    rw [Check_eq, if_pos htf]
    unfold checkTagFilter
    rw [if_pos href]
  have hperm : List.Perm (goSort tagLessDesc env.tags) env.tags := goSort_perm _ _
  have hweak := goSort_pairwise tagLessDesc tagLessDesc_asym tagLessDesc_trans env.tags
  have hdist2 : (goSort tagLessDesc env.tags).Pairwise fun a b => a.when ≠ b.when :=
    (List.Perm.pairwise_iff (fun hab => Ne.symm hab) hperm).mpr hdist
  have hstrict : (goSort tagLessDesc env.tags).Pairwise fun a b => b.when < a.when := by
    have hw : (goSort tagLessDesc env.tags).Pairwise fun a b => b.when ≤ a.when := by
      refine hweak.imp ?_
      intro a b hab
      rw [tagLessDesc_eq] at hab
      simp only [decide_eq_false_iff_not] at hab
      omega
    refine (hw.and hdist2).imp ?_
    intro a b hab
    obtain ⟨h1, h2⟩ := hab
    omega
  have hmem0 : t0 ∈ goSort tagLessDesc env.tags := hperm.mem_iff.mpr ht0
  have hp0 : (fun t => config.input.version.ref == trimTagRef t.name) t0 = true := by
    simp [hname]
  have huniq2 : ∀ u ∈ goSort tagLessDesc env.tags,
      (fun t => config.input.version.ref == trimTagRef t.name) u = true → u = t0 := by
    intro u hu he
    simp only [beq_iff_eq] at he
    exact huniq u (hperm.mem_iff.mp hu) he.symm
  have hscan := scanUntil_sorted_unique
    (fun t => config.input.version.ref == trimTagRef t.name) t0
    (goSort tagLessDesc env.tags) hstrict hmem0 hp0 huniq2
  obtain ⟨y, hpy, hylast⟩ := scanUntil_getLast_found
    (fun t => config.input.version.ref == trimTagRef t.name) (goSort tagLessDesc env.tags)
    ⟨t0, hmem0, hp0⟩
  have hres : Check env config =
      (((goSort tagLessDesc env.tags).filter fun t => decide (t0.when ≤ t.when)).map
        (fun t => trimTagRef t.name)).reverse := by
    rw [hch]
    unfold lastTags
    rw [lastTagsLoop_eq, List.append_nil, hscan]
  refine ⟨((goSort tagLessDesc env.tags).filter fun t => decide (t0.when ≤ t.when)).reverse,
    ?_, ?_, ?_, ?_⟩
  · exact (List.reverse_perm _).trans (hperm.filter _)
  · rw [List.pairwise_reverse]
    have hfs : ((goSort tagLessDesc env.tags).filter
        fun t => decide (t0.when ≤ t.when)).Pairwise fun a b => b.when < a.when :=
      hstrict.sublist (List.filter_sublist _)
    refine hfs.imp ?_
    intro a b hab
    omega
  · rw [hres]
    simp [List.map_reverse]
  · rw [hres, List.head?_reverse, getLast_map_opt, ← hscan, hylast]
    simp only [beq_iff_eq] at hpy
    simp [hpy]

theorem c1_tag_filter_with_lastSeen_witness :
    ∃ l : List Tag,
      List.Perm l (([⟨"refs/tags/A", "c1", 10⟩, ⟨"refs/tags/B", "c2", 20⟩] : List Tag).filter
        fun t => decide ((Tag.mk "refs/tags/A" "c1" 10).when ≤ t.when)) ∧
      l.Pairwise (fun a b => a.when ≤ b.when) ∧
      Check ⟨[⟨"refs/tags/A", "c1", 10⟩, ⟨"refs/tags/B", "c2", 20⟩], [], "", []⟩
        ⟨⟨⟨"u", "master", "v", none, ""⟩, ⟨"A"⟩⟩, "p"⟩ =
        l.map (fun t => trimTagRef t.name) ∧
      (Check ⟨[⟨"refs/tags/A", "c1", 10⟩, ⟨"refs/tags/B", "c2", 20⟩], [], "", []⟩
        ⟨⟨⟨"u", "master", "v", none, ""⟩, ⟨"A"⟩⟩, "p"⟩).head? = some "A" :=
  c1_tag_filter_with_lastSeen
    ⟨[⟨"refs/tags/A", "c1", 10⟩, ⟨"refs/tags/B", "c2", 20⟩], [], "", []⟩
    ⟨⟨⟨"u", "master", "v", none, ""⟩, ⟨"A"⟩⟩, "p"⟩ ⟨"refs/tags/A", "c1", 10⟩
    (by decide) (by decide) (by decide) (by decide) (by decide) (by decide)

/-- Claim C10 (confirmed): every ref the tag-filter policy emits is the
tag's reference name with leading and trailing characters from the cutset
of `"refs/tags/"` removed; any short name beginning or ending in one of
those characters therefore comes out different from the short name; and
the walk's `lastSeen` comparison is made against the trimmed string. -/
theorem c10_trim_cutset_semantics :
    (∀ (listTag : List Tag) (lastSeen : String), ∀ r ∈ lastTags listTag lastSeen,
      ∃ t, t ∈ listTag ∧ r = trimTagRef t.name) ∧
    (∀ listTag : List Tag, ∀ r ∈ lastTag listTag,
      ∃ t, t ∈ listTag ∧ r = trimTagRef t.name) ∧
    (∀ s : String, s.toList ≠ [] →
      ((∃ c, s.toList.head? = some c ∧ c ∈ tagCutset) ∨
        (∃ c, s.toList.getLast? = some c ∧ c ∈ tagCutset)) →
      trimTagRef ("refs/tags/" ++ s) ≠ s) ∧
    (∀ (lastSeen : String) (t : Tag) (ts : List Tag),
      lastSeen = trimTagRef t.name →
      lastTagsLoop lastSeen (t :: ts) [] = [trimTagRef t.name]) ∧
    (∀ (lastSeen : String) (t : Tag) (ts : List Tag),
      lastSeen ≠ trimTagRef t.name →
      lastTagsLoop lastSeen (t :: ts) [] = lastTagsLoop lastSeen ts [trimTagRef t.name]) := by
  refine ⟨?_, ?_, ?_, ?_, ?_⟩
  · intro listTag lastSeen r hr
    unfold lastTags at hr
    rw [lastTagsLoop_eq, List.append_nil, List.mem_reverse] at hr
    rcases List.mem_map.mp hr with ⟨t, ht, rfl⟩
    exact ⟨t, (goSort_perm _ _).mem_iff.mp (scanUntil_mem _ _ t ht), rfl⟩
  · intro listTag r hr
    unfold lastTag at hr
    cases hlast : (goSort tagLessAsc listTag).getLast? with
    | none =>
      rw [hlast] at hr
      simp at hr
    | some lt =>
      rw [hlast] at hr
      simp only [List.mem_singleton] at hr
      exact ⟨lt, (goSort_perm _ _).mem_iff.mp (mem_of_getLastQ _ _ hlast), hr⟩
  · intro s hne hcut heq
    have h1 := trim_concat_length_lt s hne hcut
    rw [heq] at h1
    exact lt_irrefl _ h1
  · intro lastSeen t ts h
    simp [lastTagsLoop, h]
  · intro lastSeen t ts h
    simp [lastTagsLoop, h]

theorem c10_trim_cutset_semantics_witness :
    trimTagRef ("refs/tags/" ++ "apple") ≠ "apple" :=
  c10_trim_cutset_semantics.2.2.1 "apple" (by decide) (Or.inl ⟨'a', rfl, by decide⟩)

/-- Claim C7 (confirmed): with a tag filter and a remembered version whose
string matches no trimmed tag name, the walk never stops and `Check`
returns the entire filtered set, oldest first, as a normal result. -/
theorem c7_dropped_version_full_set (env : GitEnv) (config : Config)
    (htf : config.input.source.tagFilter ≠ "")
    (href : config.input.version.ref ≠ "")
    (hmiss : ∀ t ∈ env.tags, trimTagRef t.name ≠ config.input.version.ref) :
    ∃ l : List Tag, List.Perm l env.tags ∧
      l.Pairwise (fun a b => a.when ≤ b.when) ∧
      Check env config = l.map fun t => trimTagRef t.name := by
  have hch : Check env config = lastTags env.tags config.input.version.ref := by
    rw [Check_eq, if_pos htf]
    unfold checkTagFilter
    rw [if_pos href]
  have hnom : ∀ t ∈ goSort tagLessDesc env.tags,
      (fun t => config.input.version.ref == trimTagRef t.name) t = false := by
    intro t htm
    have hmem : t ∈ env.tags := (goSort_perm _ _).mem_iff.mp htm
    simp only [beq_eq_false_iff_ne]
    exact fun he => hmiss t hmem he.symm
  refine ⟨(goSort tagLessDesc env.tags).reverse, ?_, ?_, ?_⟩
  · exact (List.reverse_perm _).trans (goSort_perm _ _)
  · have hpw := goSort_pairwise tagLessDesc tagLessDesc_asym tagLessDesc_trans env.tags
    rw [List.pairwise_reverse]
    refine hpw.imp ?_
    intro a b hab
    rw [tagLessDesc_eq] at hab
    simp only [decide_eq_false_iff_not] at hab
    omega
  · rw [hch]
    unfold lastTags
    rw [lastTagsLoop_eq, List.append_nil, scanUntil_of_no_match _ _ hnom]
    simp [List.map_reverse]

theorem c7_dropped_version_full_set_witness :
    ∃ l : List Tag,
      List.Perm l [⟨"refs/tags/v1", "c0", 9⟩, ⟨"refs/tags/v2", "c1", 5⟩] ∧
      l.Pairwise (fun a b => a.when ≤ b.when) ∧
      Check ⟨[⟨"refs/tags/v1", "c0", 9⟩, ⟨"refs/tags/v2", "c1", 5⟩], [], "tip", []⟩
        ⟨⟨⟨"u", "master", "v", none, ""⟩, ⟨"zz"⟩⟩, "p"⟩ =
        l.map fun t => trimTagRef t.name :=
  c7_dropped_version_full_set
    ⟨[⟨"refs/tags/v1", "c0", 9⟩, ⟨"refs/tags/v2", "c1", 5⟩], [], "tip", []⟩
    ⟨⟨⟨"u", "master", "v", none, ""⟩, ⟨"zz"⟩⟩, "p"⟩ (by decide) (by decide) (by decide)

end ConcourseGitResource
